import Mathlib

/- Verification of the quantum-circuit simulation and Grover-search core of the
   CVE Grover-search repository.  The gate semantics (state vectors, actions of
   Hadamard, Pauli-X, Pauli-Z, controlled-X, multi-controlled-X, RotationZ) are
   modelled from the specification of the gate library (the gates themselves are
   provided by an external quantum-computing library and are not part of the
   repository's sources); the circuit builders and the classical components
   (`create_oracle`, `run_grover_manual`, `run_classical_search`,
   `create_feature_vector`, the GUI result post-processing) are translated
   directly from `Project Code/Project.py`. -/

/-- Elements of the real quadratic field ℚ(√2), represented as `a + b·√2` with
rational coordinates.  Every amplitude arising in the Grover circuits (which use
only Hadamard, Pauli-X and multi-controlled-X gates, starting from the all-zeros
basis state) lies in this field, so the state-vector simulation can be carried
out exactly. -/
structure RQ2 where
  a : ℚ
  b : ℚ
deriving DecidableEq, Repr

instance : Zero RQ2 := ⟨⟨0, 0⟩⟩

instance : One RQ2 := ⟨⟨1, 0⟩⟩

instance : Add RQ2 := ⟨fun x y => ⟨x.a + y.a, x.b + y.b⟩⟩

instance : Neg RQ2 := ⟨fun x => ⟨-x.a, -x.b⟩⟩

instance : Sub RQ2 := ⟨fun x y => ⟨x.a - y.a, x.b - y.b⟩⟩

instance : Mul RQ2 := ⟨fun x y => ⟨x.a * y.a + 2 * (x.b * y.b), x.a * y.b + x.b * y.a⟩⟩

/-- The constant `1/√2 = √2/2` in ℚ(√2); the Hadamard normalisation factor. -/
def RQ2.invSqrt2 : RQ2 := ⟨0, 1/2⟩

/-- Interpretation of an element of ℚ(√2) as a real number. -/
noncomputable def RQ2.toReal (x : RQ2) : ℝ := (x.a : ℝ) + (x.b : ℝ) * Real.sqrt 2

/-- Decidable positivity test for `a + b·√2`: it is positive iff either both
coordinates are nonnegative and not both zero, or the positive coordinate
dominates after squaring (`a² ≷ 2b²`). -/
def RQ2.posb (x : RQ2) : Bool :=
  if 0 ≤ x.a then
    if 0 ≤ x.b then decide (x.a ≠ 0 ∨ x.b ≠ 0)
    else decide (2 * x.b ^ 2 < x.a ^ 2)
  else
    if 0 ≤ x.b then decide (x.a ^ 2 < 2 * x.b ^ 2)
    else false

theorem RQ2.posb_correct (x : RQ2) (h : x.posb = true) : 0 < x.toReal := by
  have hs0 : (0:ℝ) < Real.sqrt 2 := Real.sqrt_pos.mpr (by norm_num)
  have hs2 : Real.sqrt 2 * Real.sqrt 2 = 2 := Real.mul_self_sqrt (by norm_num)
  unfold RQ2.posb at h
  unfold RQ2.toReal
  split at h
  case isTrue ha =>
    have ha' : (0:ℝ) ≤ (x.a : ℝ) := by exact_mod_cast ha
    split at h
    case isTrue hb =>
      have hb' : (0:ℝ) ≤ (x.b : ℝ) := by exact_mod_cast hb
      rw [decide_eq_true_eq] at h
      rcases h with h | h
      · have h' : (0:ℝ) < (x.a : ℝ) := by
          have := lt_of_le_of_ne ha (Ne.symm h)
          exact_mod_cast this
        nlinarith [mul_nonneg hb' hs0.le]
      · have h' : (0:ℝ) < (x.b : ℝ) := by
          have := lt_of_le_of_ne hb (Ne.symm h)
          exact_mod_cast this
        nlinarith [mul_pos h' hs0]
    case isFalse hb =>
      rw [decide_eq_true_eq] at h
      have hb' : (x.b : ℝ) < 0 := by
        have : x.b < 0 := lt_of_not_le hb
        exact_mod_cast this
      have h' : 2 * (x.b : ℝ) ^ 2 < (x.a : ℝ) ^ 2 := by exact_mod_cast h
      have h1 : 0 < (x.a : ℝ) - (x.b : ℝ) * Real.sqrt 2 := by
        nlinarith [mul_pos (neg_pos.mpr hb') hs0]
      nlinarith [h1, hs2, h']
  case isFalse ha =>
    split at h
    case isTrue hb =>
      rw [decide_eq_true_eq] at h
      have ha' : (x.a : ℝ) < 0 := by
        have : x.a < 0 := lt_of_not_le ha
        exact_mod_cast this
      have hb' : (0:ℝ) ≤ (x.b : ℝ) := by exact_mod_cast hb
      have h' : (x.a : ℝ) ^ 2 < 2 * (x.b : ℝ) ^ 2 := by exact_mod_cast h
      have h1 : 0 < (x.b : ℝ) * Real.sqrt 2 - (x.a : ℝ) := by
        nlinarith [mul_nonneg hb' hs0.le]
      nlinarith [h1, hs2, h']
    case isFalse hb =>
      exact absurd h (by simp)

theorem RQ2.toReal_sub (x y : RQ2) : (x - y).toReal = x.toReal - y.toReal := by
  show RQ2.toReal ⟨x.a - y.a, x.b - y.b⟩ = _
  unfold RQ2.toReal
  push_cast
  ring

theorem RQ2.lt_of_sub_posb (x y : RQ2) (h : (y - x).posb = true) :
    x.toReal < y.toReal := by
  have := RQ2.posb_correct _ h
  rw [RQ2.toReal_sub] at this
  linarith

/-- Amplitude of basis state `i` in a list-represented state vector (`0` out of
range).  Basis index bit `i` corresponds to qubit `i`, following the simulator's
little-endian state-index convention. -/
def getAmp (v : List RQ2) (i : Nat) : RQ2 := v.getD i 0

/-- Modelled from the spec: Hadamard on qubit `k` of an `n`-qubit state — for
every pair of basis indices differing only in bit `k`, the amplitudes `(a0, a1)`
become `((a0+a1)/√2, (a0−a1)/√2)`.  The gate itself lives in the external
quantum library, not in the repository sources. -/
def applyH (n k : Nat) (v : List RQ2) : List RQ2 :=
  (List.range (2 ^ n)).map fun i =>
    if i.testBit k then (getAmp v (i ^^^ 2 ^ k) - getAmp v i) * RQ2.invSqrt2
    else (getAmp v i + getAmp v (i ^^^ 2 ^ k)) * RQ2.invSqrt2

/-- Modelled from the spec: Pauli-X on qubit `k` — swap amplitudes of indices
differing only in bit `k`. -/
def applyX (n k : Nat) (v : List RQ2) : List RQ2 :=
  (List.range (2 ^ n)).map fun i => getAmp v (i ^^^ 2 ^ k)

/-- Modelled from the spec: multi-controlled-X with control qubits `controls`
and target qubit `t` — where all control bits are 1, swap the amplitudes of the
index pair differing in bit `t`; elsewhere leave amplitudes unchanged. -/
def applyMCX (n : Nat) (controls : List Nat) (t : Nat) (v : List RQ2) : List RQ2 :=
  (List.range (2 ^ n)).map fun i =>
    if controls.all (fun c => i.testBit c) then getAmp v (i ^^^ 2 ^ t) else getAmp v i

/-- The circuit operations used by the Grover circuits in `Project.py`
(`qc.h`, `qc.x`, `qc.mcx`). -/
inductive Op where
  | h (k : Nat)
  | x (k : Nat)
  | mcx (controls : List Nat) (t : Nat)
deriving DecidableEq, Repr

/-- Exact state-vector action of one operation on an `n`-qubit register. -/
def runOpR (n : Nat) : Op → List RQ2 → List RQ2
  | Op.h k => applyH n k
  | Op.x k => applyX n k
  | Op.mcx controls t => applyMCX n controls t

/-- Apply a list of operations in circuit order. -/
def runOpsR (n : Nat) (ops : List Op) (v : List RQ2) : List RQ2 :=
  ops.foldl (fun w op => runOpR n op w) v

/-- The all-zeros initial basis state `|0…0⟩` of `n` qubits. -/
def initState (n : Nat) : List RQ2 :=
  (List.range (2 ^ n)).map fun i => if i = 0 then 1 else 0

/-- The only error the circuit builders in `Project.py` can hit: indexing a
quantum register outside its range (Python `q[idx]` with `idx` out of range). -/
inductive CircuitError where
  | indexOutOfRange
deriving DecidableEq, Repr

/-- Python `str.zfill(width)` on a bitstring: pad on the left with `'0'`
(`false`) up to `width`; strings at least `width` long are returned unchanged. -/
def zfill (width : Nat) (s : List Bool) : List Bool :=
  List.replicate (width - s.length) false ++ s

/-- The `for idx, bit in enumerate(pattern): if bit == 0: qc.x(q[idx])` loop of
`create_oracle`: emit a Pauli-X for every 0 bit, failing with the register's
index error when a 0 bit sits at an index outside the `num_qubits`-sized
register `q`. -/
def xLayerOps (num_qubits : Nat) : List (Nat × Bool) → Except CircuitError (List Op)
  | [] => Except.ok []
  | (idx, bit) :: rest =>
    if bit then xLayerOps num_qubits rest
    else
      if idx < num_qubits then
        match xLayerOps num_qubits rest with
        | Except.ok ops => Except.ok (Op.x idx :: ops)
        | Except.error e => Except.error e
      else Except.error CircuitError.indexOutOfRange

/-- Translation of `CVEQuantumSearch.create_oracle` (`Project.py` lines 58–75):
zero-pad the target pattern to `num_qubits`, apply X on every 0 position, a
multi-controlled X from all search qubits onto the ancilla (qubit index
`num_qubits`), and undo the X layer. -/
def create_oracle (num_qubits : Nat) (target_pattern : List Bool) :
    Except CircuitError (List Op) :=
  let pattern := zfill num_qubits target_pattern
  match xLayerOps num_qubits pattern.enum with
  | Except.error e => Except.error e
  | Except.ok xs =>
    Except.ok (xs ++ [Op.mcx (List.range num_qubits) num_qubits] ++ xs)

/-- One Grover iteration of `run_grover_manual` (`Project.py` lines 87–95):
compose the oracle, then the diffuser `h(q); x(q); h(q[-1]); mcx(q[:-1], q[-1]);
h(q[-1]); x(q); h(q)`.  Returns the operations appended to the circuit before
any failure, together with the failure (Python `q[-1]` on an empty register
fails, and `create_oracle` can fail). -/
def groverIterationOps (k : Nat) (target : List Bool) : List Op × Option CircuitError :=
  match create_oracle k target with
  | Except.error e => ([], some e)
  | Except.ok oracle =>
    if k = 0 then
      (oracle ++ (List.range k).map Op.h ++ (List.range k).map Op.x,
        some CircuitError.indexOutOfRange)
    else
      (oracle ++ (List.range k).map Op.h ++ (List.range k).map Op.x
        ++ [Op.h (k - 1), Op.mcx (List.range (k - 1)) (k - 1), Op.h (k - 1)]
        ++ (List.range k).map Op.x ++ (List.range k).map Op.h, none)

/-- The `for _ in range(iterations)` loop of `run_grover_manual`: repeat the
Grover iteration, stopping at the first failure. -/
def groverLoop (k : Nat) (target : List Bool) : Nat → List Op × Option CircuitError
  | 0 => ([], none)
  | Nat.succ m =>
    match groverIterationOps k target with
    | (ops, some e) => (ops, some e)
    | (ops, none) =>
      match groverLoop k target m with
      | (rest, r) => (ops ++ rest, r)

/-- Translation of `CVEQuantumSearch.run_grover_manual` (`Project.py` lines
77–101) as a circuit-construction trace: ancilla preparation `x(anc); h(anc)`,
Hadamards on all `k` search qubits, then `iterations` Grover iterations.  The
result is the list of gate operations appended to the circuit in order,
together with the first construction error if one occurs (the final
`measure(q, c)` maps qubit `i` to classical bit `i` and is handled by the
measurement marginal below). -/
def run_grover_manual (k : Nat) (target : List Bool) (iterations : Nat) :
    List Op × Option CircuitError :=
  let initOps : List Op := Op.x k :: Op.h k :: (List.range k).map Op.h
  match groverLoop k target iterations with
  | (ops, r) => (initOps ++ ops, r)

/-- The target pattern `"1011"` of the Grover scenario, one `Bool` per
character in string order; character `idx` addresses search qubit `q[idx]`. -/
def pattern1011 : List Bool := [true, false, true, true]

/-- The gate sequence of `run_grover_manual("1011", 3)` with 4 search qubits. -/
def groverOps1011 : List Op := (run_grover_manual 4 pattern1011 3).1

/-- The exact final state vector (5 qubits: `q0..q3` and the ancilla `q4`) of
the Grover scenario circuit. -/
def groverFinal : List RQ2 := runOpsR 5 groverOps1011 (initState 5)

/-- Squared magnitude of a (real) amplitude in ℚ(√2). -/
def ampSq (x : RQ2) : RQ2 := x * x

/-- Probability that measuring the search qubits (classical bit `i` reads qubit
`i`, the ancilla is not measured) yields the count key of value `s`: the
probability mass of basis indices `s` and `s + 2^4` (ancilla 0 and 1).  A
returned count key `"b3b2b1b0"` denotes the value `s = Σ bᵢ·2^i`, classical bit
0 printed rightmost. -/
def measProb (s : Nat) : RQ2 := ampSq (getAmp groverFinal s) + ampSq (getAmp groverFinal (s + 16))

attribute [local semireducible] Rat.add Rat.sub Rat.mul Rat.inv

/-- The exact amplitudes of the Grover scenario's final state, obtained by
evaluating the simulation: every basis state carries amplitude `±13/512·√2`
except the marked state (search-qubit value 13, ancilla 0 or 1), which carries
`∓251/512·√2`. -/
def groverFinalLit : List RQ2 :=
  (List.range 32).map fun i =>
    if i = 13 then ⟨0, -251/512⟩
    else if i = 29 then ⟨0, 251/512⟩
    else if i < 16 then ⟨0, 13/512⟩
    else ⟨0, -13/512⟩

set_option maxRecDepth 100000 in
theorem groverFinal_eq : groverFinal = groverFinalLit := by decide

theorem measProb_eq (s : Nat) :
    measProb s = ampSq (getAmp groverFinalLit s) + ampSq (getAmp groverFinalLit (s + 16)) := by
  unfold measProb
  rw [groverFinal_eq]

/-- Claim C1, counterexample: in the Grover scenario (4 search qubits, target
pattern `"1011"`, 3 iterations), the returned count key `"1011"` (value 11) is
NOT the strict plurality outcome: the key `"1101"` (value 13) has strictly
larger measurement probability.  The oracle marks the basis state whose qubit
`i` equals pattern character `i`, while a returned count key lists classical
bit 0 (qubit 0) rightmost, so the amplified key is the reverse of the pattern
string. -/
theorem grover_claimed_target_not_plurality :
    (measProb 11).toReal < (measProb 13).toReal := by
  exact RQ2.lt_of_sub_posb _ _ (by rw [measProb_eq, measProb_eq]; decide)

/-- Claim C1, amended: the Grover scenario circuit is built without error, and
measuring it makes the count key `"1101"` (value 13, the target pattern read in
the little-endian count-key order) the strict plurality outcome, with
probability `63001/65536 ≈ 0.961`, far above the uniform baseline `1/16`. -/
theorem grover_plurality_is_reversed_pattern :
    (run_grover_manual 4 pattern1011 3).2 = none ∧
    (∀ s : Nat, s < 16 → s ≠ 13 → (measProb s).toReal < (measProb 13).toReal) ∧
    (1 : ℝ) / 16 < (measProb 13).toReal := by
  refine ⟨by decide, ?_, ?_⟩
  · intro s hs hne
    apply RQ2.lt_of_sub_posb
    rw [measProb_eq, measProb_eq]
    interval_cases s <;> first | decide | (exact absurd rfl hne)
  · have h13 : measProb 13 = ⟨63001/65536, 0⟩ := by rw [measProb_eq]; decide
    rw [h13]
    unfold RQ2.toReal
    norm_num

/-- Witness for claim C1's amended theorem at the concrete outcome 0. -/
theorem grover_plurality_is_reversed_pattern_witness :
    (0:Nat) < 16 ∧ (0:Nat) ≠ 13 ∧ (measProb 0).toReal < (measProb 13).toReal :=
  ⟨by decide, by decide,
    grover_plurality_is_reversed_pattern.2.1 0 (by decide) (by decide)⟩

/-- Python `int(np.round(x))` for nonnegative `x`: NumPy rounds half to even,
and `int` truncation on the resulting integral float is the identity on its
integer value. -/
noncomputable def np_round (x : ℝ) : ℤ :=
  if x - ⌊x⌋ = 1/2 then (if Even ⌊x⌋ then ⌊x⌋ else ⌊x⌋ + 1) else round x

/-- Translation of `iterations = int(np.round(np.pi/4 * np.sqrt(2**num_qubits)))`
(`Project.py` line 536). -/
noncomputable def grover_iterations (num_qubits : Nat) : ℕ :=
  (np_round (Real.pi / 4 * Real.sqrt (2 ^ num_qubits))).toNat

/-- Claim C5: the Grover iteration count is `round(π/4 · √(2^k))`, which for
the 4 search qubits used by `run_search` evaluates to 3. -/
theorem grover_iteration_count_four : grover_iterations 4 = 3 := by
  have h16 : ((2 : ℝ) ^ (4 : ℕ)) = 16 := by norm_num
  have hsqrt : Real.sqrt ((2 : ℝ) ^ (4 : ℕ)) = 4 := by
    rw [h16, show (16 : ℝ) = 4 ^ 2 by norm_num, Real.sqrt_sq (by norm_num : (0:ℝ) ≤ 4)]
  have hx : Real.pi / 4 * Real.sqrt ((2 : ℝ) ^ (4 : ℕ)) = Real.pi := by
    rw [hsqrt]; ring
  have hπ3 : (3 : ℝ) < Real.pi := Real.pi_gt_three
  have hπ4 : Real.pi < 3.15 := Real.pi_lt_d2
  have hfl : ⌊Real.pi⌋ = 3 := by
    rw [Int.floor_eq_iff]
    constructor <;> push_cast <;> linarith
  unfold grover_iterations np_round
  rw [hx, hfl]
  have hne : ¬(Real.pi - ((3:ℤ) : ℝ) = 1/2) := by push_cast; intro h; linarith
  rw [if_neg hne]
  have hround : round Real.pi = 3 := by
    rw [round_eq, Int.floor_eq_iff]
    constructor <;> push_cast <;> linarith
  rw [hround]
  rfl

/-- Boolean test that `needle` is a leading segment of `hay`. -/
def leadMatch : List Char → List Char → Bool
  | [], _ => true
  | _ :: _, [] => false
  | a :: as, b :: bs => a == b && leadMatch as bs

/-- Python substring containment (`needle in hay`) on character lists. -/
def containsSub (needle : List Char) : List Char → Bool
  | [] => leadMatch needle []
  | c :: rest => leadMatch needle (c :: rest) || containsSub needle rest

/-- Python `str.lower()` on character lists. -/
def lowerStr (s : List Char) : List Char := s.map Char.toLower

/-- Translation of `CVEQuantumSearch.create_feature_vector` (`Project.py` lines
24–56): two bits for the vulnerability type keyword, one for the attack vector,
one for the privilege requirement. -/
def create_feature_vector (description attack_vector privilege_required : List Char) :
    List Char :=
  (if containsSub ("buffer".toList) (lowerStr description) then ['0', '0']
   else if containsSub ("sql".toList) (lowerStr description) then ['0', '1']
   else if containsSub ("xss".toList) (lowerStr description) then ['1', '0']
   else ['1', '1'])
  ++ (if containsSub ("remote".toList) (lowerStr attack_vector) then ['0'] else ['1'])
  ++ (if lowerStr privilege_required = ("low".toList) then ['0'] else ['1'])

/-- Claim C10: `create_feature_vector` is a total function of its three string
arguments that always returns exactly 4 characters, each `'0'` or `'1'`
(determinism is inherent: it is a pure function of its arguments). -/
theorem feature_vector_shape (description attack_vector privilege_required : List Char) :
    (create_feature_vector description attack_vector privilege_required).length = 4 ∧
    ∀ c ∈ create_feature_vector description attack_vector privilege_required,
      c = '0' ∨ c = '1' := by
  unfold create_feature_vector
  split_ifs <;> exact ⟨rfl, by decide⟩

/-- Witness for claim C10's theorem at concrete inputs. -/
theorem feature_vector_shape_witness :
    (create_feature_vector ("buffer overflow".toList) ("remote".toList) ("low".toList)).length
      = 4 ∧
    (('0' : Char) = '0' ∨ ('0' : Char) = '1') :=
  ⟨(feature_vector_shape ("buffer overflow".toList) ("remote".toList) ("low".toList)).1,
   (feature_vector_shape ("buffer overflow".toList) ("remote".toList) ("low".toList)).2
     '0' (by decide)⟩

/-- Lookup in an insertion-ordered association list (Python `dict` access). -/
def lookupC : List (List Bool × Nat) → List Bool → Option Nat
  | [], _ => none
  | (k', v) :: rest, k => if k' = k then some v else lookupC rest k

/-- Python `dict` assignment `d[k] = v`: update the value in place if the key
exists (keeping its position), otherwise append the new pair. -/
def setC : List (List Bool × Nat) → List Bool → Nat → List (List Bool × Nat)
  | [], k, v => [(k, v)]
  | (k', v') :: rest, k, v =>
    if k' = k then (k', v) :: rest else (k', v') :: setC rest k v

/-- Translation of the quantum-counts post-processing of `CVEGuiApp.run_search`
(`Project.py` lines 558–565): take the maximum count (1024 for an empty
mapping), insert the feature vector with count 0 when missing, then overwrite
its count with ten times the maximum. -/
def adjust_quantum_counts (feature_vector : List Bool)
    (quantum_counts : List (List Bool × Nat)) : List (List Bool × Nat) :=
  let highest_count :=
    if quantum_counts.isEmpty then 1024 else (quantum_counts.map Prod.snd).foldl max 0
  let counts1 :=
    if (lookupC quantum_counts feature_vector).isSome then quantum_counts
    else setC quantum_counts feature_vector 0
  setC counts1 feature_vector (highest_count * 10)

/-- Translation of the synthesized "quantum time" of `CVEGuiApp.run_search`
(`Project.py` lines 544–551): the classical search time scaled by the
theoretical factor `√N/N` and a random variation factor in `[0.9, 1.1]`. -/
noncomputable def quantum_time_figure (classical_time : ℝ) (num_qubits : Nat)
    (variation : ℝ) : ℝ :=
  classical_time * (Real.sqrt (2 ^ num_qubits) / 2 ^ num_qubits) * variation

/-- A representative measurement histogram of the Grover scenario run (the
amplified key `"1101"` and one residual key). -/
def sampleQuantumCounts : List (List Bool × Nat) :=
  [([true, true, false, true], 985), ([false, false, false, false], 39)]

/-- Claim C3 (code bug): `run_search` does not return the state-vector-derived
counts — it overwrites the feature-vector bin with ten times the maximum count
(adding the bin if absent), and the reported "quantum search time" is the
classical baseline's time scaled by `√N/N` and a random variation, not a
measured duration.  Evaluated at a representative histogram for feature vector
`"1011"`: the returned counts differ from the simulator's counts and carry a
fabricated 9850-count bin, and the time figure is `classical_time·variation/4`
for 4 qubits. -/
theorem run_search_fabricates_results :
    adjust_quantum_counts pattern1011 sampleQuantumCounts ≠ sampleQuantumCounts ∧
    lookupC (adjust_quantum_counts pattern1011 sampleQuantumCounts) pattern1011 = some 9850 ∧
    ∀ classical_time variation : ℝ,
      quantum_time_figure classical_time 4 variation = classical_time * variation / 4 := by
  refine ⟨by decide, by decide, ?_⟩
  intro c var
  unfold quantum_time_figure
  have hsqrt : Real.sqrt ((2 : ℝ) ^ (4 : ℕ)) = 4 := by
    rw [show ((2:ℝ) ^ (4:ℕ)) = 4 ^ 2 by norm_num, Real.sqrt_sq (by norm_num : (0:ℝ) ≤ 4)]
  rw [hsqrt]
  norm_num
  ring

/-- Whether an `Except` computation succeeded. -/
def exceptOk {ε α : Type} : Except ε α → Bool
  | Except.ok _ => true
  | Except.error _ => false

theorem xLayerOps_ok_iff (n : Nat) (l : List (Nat × Bool)) :
    exceptOk (xLayerOps n l) = true ↔ ∀ pr ∈ l, pr.2 = false → pr.1 < n := by
  induction l with
  | nil => simp [xLayerOps, exceptOk]
  | cons hd tl ih =>
    obtain ⟨idx, b⟩ := hd
    cases b with
    | true =>
      rw [show xLayerOps n ((idx, true) :: tl) = xLayerOps n tl from rfl, ih]
      constructor
      · intro h pr hpr hfalse
        rcases List.mem_cons.mp hpr with h1 | h1
        · rw [h1] at hfalse; exact absurd hfalse (by simp)
        · exact h pr h1 hfalse
      · intro h pr hpr hfalse
        exact h pr (List.mem_cons_of_mem _ hpr) hfalse
    | false =>
      simp only [xLayerOps, if_neg (by simp : ¬(false = true))]
      by_cases hidx : idx < n
      · rw [if_pos hidx]
        have hsk : exceptOk (match xLayerOps n tl with
            | Except.ok ops => Except.ok (Op.x idx :: ops)
            | Except.error e => (Except.error e : Except CircuitError (List Op)))
            = exceptOk (xLayerOps n tl) := by
          cases xLayerOps n tl <;> rfl
        rw [hsk, ih]
        constructor
        · intro h pr hpr hfalse
          rcases List.mem_cons.mp hpr with h1 | h1
          · rw [h1]; exact hidx
          · exact h pr h1 hfalse
        · intro h pr hpr hfalse
          exact h pr (List.mem_cons_of_mem _ hpr) hfalse
      · rw [if_neg hidx]
        constructor
        · intro h
          simp [exceptOk] at h
        · intro hall
          exact absurd (hall (idx, false) (List.mem_cons_self _ _) rfl) hidx

/-- Whether `create_oracle` builds a circuit (rather than raising). -/
def oracleBuilds (num_qubits : Nat) (target_pattern : List Bool) : Bool :=
  exceptOk (create_oracle num_qubits target_pattern)

/-- Claim C8, counterexample: a target pattern of length 3 with 4 search qubits
does not raise — `create_oracle` zero-pads it with `zfill` and builds the
oracle circuit, although the pattern's length differs from the search-qubit
count. -/
theorem oracle_short_pattern_builds :
    oracleBuilds 4 [true, false, true] = true ∧ [true, false, true].length ≠ 4 := by
  decide

/-- Claim C8, amended: `create_oracle` succeeds exactly when every 0 bit of the
zero-padded pattern addresses a register index below the search-qubit count.
Patterns of length at most the count always build (shorter ones are left-padded
with zeros rather than rejected); only a longer pattern with a 0 bit at an
out-of-range position fails, and the failure is the register's index error, not
a length validation. -/
theorem oracle_build_success_iff (num_qubits : Nat) (target_pattern : List Bool) :
    oracleBuilds num_qubits target_pattern = true ↔
      ∀ pr ∈ (zfill num_qubits target_pattern).enum, pr.2 = false → pr.1 < num_qubits := by
  unfold oracleBuilds create_oracle
  rw [← xLayerOps_ok_iff]
  cases hx : xLayerOps num_qubits (zfill num_qubits target_pattern).enum <;>
    simp [exceptOk, hx]

/-- Witness for claim C8's amended theorem: a pattern of length 3 on 2 search
qubits whose only 0 bit is in range builds successfully. -/
theorem oracle_build_success_iff_witness :
    oracleBuilds 2 [false, true, true] = true :=
  (oracle_build_success_iff 2 [false, true, true]).mpr (by decide)

theorem xLayerOps_zero_error (t : List Bool) (s : Nat) (hfalse : false ∈ t) :
    xLayerOps 0 (List.enumFrom s t) = Except.error CircuitError.indexOutOfRange := by
  induction t generalizing s with
  | nil => cases hfalse
  | cons b t' ih =>
    cases b with
    | false =>
      show xLayerOps 0 ((s, false) :: List.enumFrom (s + 1) t') = _
      unfold xLayerOps
      rw [if_neg (by simp : ¬(false = true)), if_neg (by omega : ¬s < 0)]
    | true =>
      have h' : false ∈ t' := by
        rcases List.mem_cons.mp hfalse with h1 | h1
        · exact absurd h1 (by simp)
        · exact h1
      show xLayerOps 0 ((s, true) :: List.enumFrom (s + 1) t') = _
      unfold xLayerOps
      rw [if_pos rfl]
      exact ih (s + 1) h'

/-- Claim C7, counterexample: `run_grover_manual` with zero search qubits and
target `"0"` applies two gates to the ancilla (`x(anc)` and `h(anc)`) before
circuit construction fails, and the failure is the register's index error
raised inside `create_oracle`, not an InvalidConfiguration/ConfigurationError
issued before any gate. -/
theorem grover_zero_qubits_applies_gates_then_fails :
    run_grover_manual 0 [false] 3 =
      ([Op.x 0, Op.h 0], some CircuitError.indexOutOfRange) := by
  decide

/-- Claim C7, amended: no zero-search-qubit validation exists.  For `k = 0`,
any target containing a 0 bit and at least one Grover iteration, the builder
first applies the ancilla preparation gates and then fails partway through the
first oracle with a register-index-out-of-range error. -/
theorem grover_zero_qubits_no_validation (target : List Bool) (iterations : Nat)
    (hfalse : false ∈ target) (hiter : 1 ≤ iterations) :
    run_grover_manual 0 target iterations =
      ([Op.x 0, Op.h 0], some CircuitError.indexOutOfRange) := by
  have hx : xLayerOps 0 (zfill 0 target).enum = Except.error CircuitError.indexOutOfRange := by
    have hz : zfill 0 target = target := by simp [zfill]
    rw [hz, show target.enum = List.enumFrom 0 target from rfl]
    exact xLayerOps_zero_error target 0 hfalse
  have horacle : create_oracle 0 target = Except.error CircuitError.indexOutOfRange := by
    simp only [create_oracle]
    rw [hx]
  obtain ⟨m, rfl⟩ : ∃ m, iterations = m + 1 := ⟨iterations - 1, by omega⟩
  simp [run_grover_manual, groverLoop, groverIterationOps, horacle]

/-- Witness for claim C7's amended theorem at target `"0"` with one iteration. -/
theorem grover_zero_qubits_no_validation_witness :
    run_grover_manual 0 [false] 1 =
      ([Op.x 0, Op.h 0], some CircuitError.indexOutOfRange) :=
  grover_zero_qubits_no_validation [false] 1 (by decide) (by decide)

/-- Binary digits of `i` (most significant first, empty for 0), computed with
structural fuel; `fuel ≥ i` suffices. -/
def binDigitsAux : Nat → Nat → List Bool
  | 0, _ => []
  | fuel + 1, i => if i = 0 then [] else binDigitsAux fuel (i / 2) ++ [decide (i % 2 = 1)]

/-- Python `format(i, f'0{width}b')`: the binary representation of `i` (at
least one digit), left-padded with `'0'` to `width`; wider numbers keep all
their digits. -/
def format_bin (width i : Nat) : List Bool :=
  let ds := binDigitsAux i i
  let ds2 := if ds = [] then [false] else ds
  List.replicate (width - ds2.length) false ++ ds2

/-- Numeric value of a most-significant-first digit list. -/
def binVal (l : List Bool) : Nat :=
  l.foldl (fun acc b => 2 * acc + (if b then 1 else 0)) 0

theorem binVal_replicate (m : Nat) (l : List Bool) :
    binVal (List.replicate m false ++ l) = binVal l := by
  induction m with
  | zero => rfl
  | succ k ih => exact ih

theorem binVal_binDigitsAux : ∀ (fuel i : Nat), i ≤ fuel → binVal (binDigitsAux fuel i) = i := by
  intro fuel
  induction fuel with
  | zero =>
    intro i hi
    interval_cases i
    rfl
  | succ f ih =>
    intro i hi
    by_cases h0 : i = 0
    · subst h0; rfl
    · show binVal (if i = 0 then [] else binDigitsAux f (i / 2) ++ [decide (i % 2 = 1)]) = i
      rw [if_neg h0]
      unfold binVal
      rw [List.foldl_append]
      have hle : i / 2 ≤ f := by omega
      have hv := ih (i / 2) hle
      unfold binVal at hv
      simp only [List.foldl_cons, List.foldl_nil]
      rw [hv]
      rcases Nat.mod_two_eq_zero_or_one i with hm | hm <;> simp [hm] <;> omega

theorem binVal_format_bin (width i : Nat) : binVal (format_bin width i) = i := by
  by_cases h0 : i = 0
  · subst h0
    show binVal (format_bin width 0) = 0
    have h1 : format_bin width 0 = List.replicate (width - 1) false ++ [false] := rfl
    rw [h1, binVal_replicate]
    rfl
  · obtain ⟨f, rfl⟩ : ∃ f, i = f + 1 := ⟨i - 1, by omega⟩
    have hne : binDigitsAux (f + 1) (f + 1) ≠ [] := by
      show (if f + 1 = 0 then [] else binDigitsAux f ((f + 1) / 2) ++ [decide ((f + 1) % 2 = 1)]) ≠ []
      rw [if_neg (by omega : ¬f + 1 = 0)]
      simp
    show binVal (List.replicate _ false ++ _) = f + 1
    rw [binVal_replicate]
    rw [if_neg hne]
    exact binVal_binDigitsAux (f + 1) (f + 1) le_rfl

theorem format_bin_inj (width : Nat) : Function.Injective (format_bin width) :=
  fun i j h => by rw [← binVal_format_bin width i, h, binVal_format_bin]

/-- The mock database of `run_classical_search`: the `database_size` binary
strings `format(i, f'0{num_qubits}b')` in order. -/
def mock_db (num_qubits database_size : Nat) : List (List Bool) :=
  (List.range database_size).map (format_bin num_qubits)

theorem mock_db_nodup (num_qubits database_size : Nat) :
    (mock_db num_qubits database_size).Nodup :=
  (List.nodup_range database_size).map (format_bin_inj num_qubits)

/-- One scan step of `run_classical_search`: `matches[entry] += 1` if present,
else `matches[entry] = 1`. -/
def bump (m : List (List Bool × Nat)) (e : List Bool) : List (List Bool × Nat) :=
  match lookupC m e with
  | some c => setC m e (c + 1)
  | none => setC m e 1

/-- Translation of `CVEQuantumSearch.run_classical_search` (`Project.py` lines
103–152): build the mock database, scan it sequentially in order recording a
visit count for every entry (no early exit on a match), then quadruple the
target pattern's count — `matches[target] *= 4` if present, else
`matches[target] = 4`.  The per-entry sleep and the wall-clock duration are not
modelled. -/
def run_classical_search (num_qubits database_size : Nat) (target : List Bool) :
    List (List Bool × Nat) :=
  let visit_counts := (mock_db num_qubits database_size).foldl bump []
  match lookupC visit_counts target with
  | some c => setC visit_counts target (c * 4)
  | none => setC visit_counts target 4

theorem lookupC_append_right (m1 m2 : List (List Bool × Nat)) (k : List Bool)
    (h : lookupC m1 k = none) : lookupC (m1 ++ m2) k = lookupC m2 k := by
  induction m1 with
  | nil => rfl
  | cons hd tl ih =>
    obtain ⟨k', v⟩ := hd
    by_cases hk : k' = k
    · simp [lookupC, hk] at h
    · simp only [lookupC, if_neg hk] at h ⊢
      exact ih h

theorem setC_of_lookup_none (m : List (List Bool × Nat)) (k : List Bool) (v : Nat)
    (h : lookupC m k = none) : setC m k v = m ++ [(k, v)] := by
  induction m with
  | nil => rfl
  | cons hd tl ih =>
    obtain ⟨k', v'⟩ := hd
    by_cases hk : k' = k
    · simp [lookupC, hk] at h
    · simp only [lookupC, if_neg hk] at h
      simp only [setC, if_neg hk, List.cons_append]
      rw [ih h]

theorem lookupC_setC_self (m : List (List Bool × Nat)) (k : List Bool) (v : Nat) :
    lookupC (setC m k v) k = some v := by
  induction m with
  | nil => simp [setC, lookupC]
  | cons hd tl ih =>
    obtain ⟨k', v'⟩ := hd
    by_cases hk : k' = k
    · simp [setC, lookupC, hk]
    · simp only [setC, if_neg hk, lookupC, if_neg hk]
      exact ih

theorem lookupC_setC_ne (m : List (List Bool × Nat)) (k k' : List Bool) (v : Nat)
    (h : k' ≠ k) : lookupC (setC m k v) k' = lookupC m k' := by
  have hkk : ¬k = k' := fun hh => h (Eq.symm hh)
  induction m with
  | nil => simp only [setC, lookupC, if_neg hkk]
  | cons hd tl ih =>
    obtain ⟨k0, v0⟩ := hd
    by_cases hk : k0 = k
    · subst hk
      simp only [setC, if_pos rfl, lookupC, if_neg hkk]
    · simp only [setC, if_neg hk, lookupC]
      by_cases hk' : k0 = k'
      · simp [hk']
      · simp only [if_neg hk']
        exact ih

theorem lookupC_map_one (l : List (List Bool)) (e : List Bool) (he : e ∈ l) :
    lookupC (l.map fun x => (x, 1)) e = some 1 := by
  induction l with
  | nil => cases he
  | cons hd tl ih =>
    by_cases hk : hd = e
    · simp [lookupC, hk]
    · have h' : e ∈ tl := by
        rcases List.mem_cons.mp he with h1 | h1
        · exact absurd h1.symm hk
        · exact h1
      simp only [List.map_cons, lookupC, if_neg hk]
      exact ih h'

theorem lookupC_map_none (l : List (List Bool)) (e : List Bool) (he : e ∉ l) :
    lookupC (l.map fun x => (x, 1)) e = none := by
  induction l with
  | nil => rfl
  | cons hd tl ih =>
    have hk : hd ≠ e := fun hh => he (hh ▸ List.mem_cons_self _ _)
    simp only [List.map_cons, lookupC, if_neg hk]
    exact ih fun h1 => he (List.mem_cons_of_mem _ h1)

theorem foldl_bump (db : List (List Bool)) : ∀ (acc : List (List Bool × Nat)),
    db.Nodup → (∀ e ∈ db, lookupC acc e = none) →
    db.foldl bump acc = acc ++ db.map (fun e => (e, 1)) := by
  induction db with
  | nil => intro acc _ _; simp
  | cons d ds ih =>
    intro acc hnodup hnone
    have hd_none : lookupC acc d = none := hnone d (List.mem_cons_self _ _)
    have hbump : bump acc d = acc ++ [(d, 1)] := by
      unfold bump
      rw [hd_none, setC_of_lookup_none _ _ _ hd_none]
    show List.foldl bump (bump acc d) ds = _
    rw [hbump, ih (acc ++ [(d, 1)]) (List.Nodup.of_cons hnodup) ?_]
    · simp
    · intro e he
      have hed : d ≠ e := fun hh => (List.nodup_cons.mp hnodup).1 (hh ▸ he)
      rw [lookupC_append_right _ _ _ (hnone e (List.mem_cons_of_mem _ he))]
      simp [lookupC, hed]

/-- Claim C6, counterexample: for target `"1011"` and the default 16-entry
database, the returned counts give the target entry a visit count of 4, not 1,
although it was visited exactly once. -/
theorem classical_search_target_count_quadrupled :
    pattern1011 ∈ mock_db 4 16 ∧
    lookupC (run_classical_search 4 16 pattern1011) pattern1011 = some 4 ∧
    (some 4 : Option Nat) ≠ some 1 := by
  decide

/-- Claim C6, amended: the classical scan still visits every database entry
exactly once in order (the database is duplicate-free and folded sequentially),
and every non-target entry's recorded count is 1 — but the target's recorded
count is always 4: its single visit is quadrupled after the scan, or a count
of 4 is inserted when the target is not in the database. -/
theorem classical_search_counts (num_qubits database_size : Nat) (target : List Bool) :
    (∀ e ∈ mock_db num_qubits database_size, e ≠ target →
      lookupC (run_classical_search num_qubits database_size target) e = some 1) ∧
    lookupC (run_classical_search num_qubits database_size target) target = some 4 := by
  have hcounts : (mock_db num_qubits database_size).foldl bump [] =
      (mock_db num_qubits database_size).map (fun e => (e, 1)) := by
    rw [foldl_bump _ [] (mock_db_nodup _ _) (fun _ _ => rfl)]
    rfl
  simp only [run_classical_search, hcounts]
  by_cases htgt : target ∈ mock_db num_qubits database_size
  · rw [lookupC_map_one _ _ htgt]
    constructor
    · intro e he hne
      rw [lookupC_setC_ne _ _ _ _ hne]
      exact lookupC_map_one _ _ he
    · rw [lookupC_setC_self]
  · rw [lookupC_map_none _ _ htgt]
    constructor
    · intro e he hne
      rw [lookupC_setC_ne _ _ _ _ hne]
      exact lookupC_map_one _ _ he
    · rw [lookupC_setC_self]

/-- Witness for claim C6's amended theorem: entry `"0000"` of the default
database keeps count 1 while target `"1011"` is reported with count 4. -/
theorem classical_search_counts_witness :
    lookupC (run_classical_search 4 16 pattern1011) (format_bin 4 0) = some 1 ∧
    lookupC (run_classical_search 4 16 pattern1011) pattern1011 = some 4 :=
  ⟨(classical_search_counts 4 16 pattern1011).1 (format_bin 4 0) (by decide) (by decide),
   (classical_search_counts 4 16 pattern1011).2⟩

/-- Modelled from the spec: the gates as exact operators on complex state
vectors (`Nat → ℂ`, amplitude of basis index `i` at `i`), for the general
theorems about normalization, the oracle and RotationZ.  Hadamard on qubit
`k`. -/
noncomputable def applyH_C (k : Nat) (v : Nat → ℂ) : Nat → ℂ := fun i =>
  if i.testBit k then (v (i ^^^ 2 ^ k) - v i) / ((Real.sqrt 2 : ℝ) : ℂ)
  else (v i + v (i ^^^ 2 ^ k)) / ((Real.sqrt 2 : ℝ) : ℂ)

/-- Modelled from the spec: Pauli-X on qubit `k` over ℂ. -/
def applyX_C (k : Nat) (v : Nat → ℂ) : Nat → ℂ := fun i => v (i ^^^ 2 ^ k)

/-- Modelled from the spec: Pauli-Z on qubit `k` — negate amplitudes where bit
`k` is 1. -/
def applyZ_C (k : Nat) (v : Nat → ℂ) : Nat → ℂ := fun i =>
  if i.testBit k then -v i else v i

/-- Modelled from the spec: controlled-X with control `c` and target `t`. -/
def applyCX_C (c t : Nat) (v : Nat → ℂ) : Nat → ℂ := fun i =>
  if i.testBit c then v (i ^^^ 2 ^ t) else v i

/-- Modelled from the spec: multi-controlled-X over ℂ. -/
def applyMCX_C (controls : List Nat) (t : Nat) (v : Nat → ℂ) : Nat → ℂ := fun i =>
  if controls.all (fun c => i.testBit c) then v (i ^^^ 2 ^ t) else v i

/-- Modelled from the spec: RotationZ by angle `θ` on qubit `k` — multiply by
`e^{-iθ/2}` where bit `k` is 0 and by `e^{+iθ/2}` where it is 1. -/
noncomputable def applyRZ_C (θ : ℝ) (k : Nat) (v : Nat → ℂ) : Nat → ℂ := fun i =>
  if i.testBit k then Complex.exp (((θ / 2 : ℝ) : ℂ) * Complex.I) * v i
  else Complex.exp (((-(θ / 2) : ℝ) : ℂ) * Complex.I) * v i

/-- Sum of squared amplitude magnitudes (total measurement probability) of an
`n`-qubit state. -/
noncomputable def sumSq (n : Nat) (v : Nat → ℂ) : ℝ :=
  ∑ i in Finset.range (2 ^ n), Complex.normSq (v i)

theorem sum_involution_range (N : Nat) (σ : Nat → Nat)
    (hmem : ∀ i, i < N → σ i < N) (hinv : ∀ i, i < N → σ (σ i) = i) (f : Nat → ℝ) :
    ∑ i in Finset.range N, f (σ i) = ∑ i in Finset.range N, f i := by
  have hinj : ∀ x ∈ Finset.range N, ∀ y ∈ Finset.range N, σ x = σ y → x = y := by
    intro x hx y hy hxy
    have hx' := Finset.mem_range.mp hx
    have hy' := Finset.mem_range.mp hy
    have h1 := hinv x hx'
    rw [hxy, hinv y hy'] at h1
    exact h1.symm
  have himg : (Finset.range N).image σ = Finset.range N := by
    apply Finset.ext
    intro j
    simp only [Finset.mem_image, Finset.mem_range]
    constructor
    · rintro ⟨i, hi, rfl⟩
      exact hmem i hi
    · intro hj
      exact ⟨σ j, hmem j hj, hinv j hj⟩
  calc ∑ i in Finset.range N, f (σ i) = ∑ j in (Finset.range N).image σ, f j :=
        (Finset.sum_image hinj).symm
    _ = ∑ i in Finset.range N, f i := by rw [himg]

theorem sumSq_applyH_C (n k : Nat) (hk : k < n) (v : Nat → ℂ) :
    sumSq n (applyH_C k v) = sumSq n v := by
  have hmem : ∀ i, i < 2 ^ n → i ^^^ 2 ^ k < 2 ^ n := fun i hi =>
    Nat.xor_lt_two_pow hi (Nat.pow_lt_pow_right (by norm_num) hk)
  have hinvol : ∀ i : Nat, (i ^^^ 2 ^ k) ^^^ 2 ^ k = i := fun i => Nat.xor_cancel_right _ _
  have hbitσ : ∀ i : Nat, (i ^^^ 2 ^ k).testBit k = !(i.testBit k) := by
    intro i
    rw [Nat.testBit_xor, Nat.testBit_two_pow_self]
    cases i.testBit k <;> rfl
  have hnormdiv : ∀ z : ℂ,
      Complex.normSq (z / ((Real.sqrt 2 : ℝ) : ℂ)) = Complex.normSq z / 2 := by
    intro z
    rw [Complex.normSq_div, Complex.normSq_ofReal, Real.mul_self_sqrt (by norm_num)]
  have hS := sum_involution_range (2 ^ n) (fun i => i ^^^ 2 ^ k) hmem (fun i _ => hinvol i)
  have hH : ∀ i, Complex.normSq (applyH_C k v i) =
      (if i.testBit k then Complex.normSq (v (i ^^^ 2 ^ k) - v i)
       else Complex.normSq (v i + v (i ^^^ 2 ^ k))) / 2 := by
    intro i
    unfold applyH_C
    by_cases hb : i.testBit k
    · rw [if_pos hb, if_pos hb, hnormdiv]
    · rw [if_neg hb, if_neg hb, hnormdiv]
  have hpair : ∀ i : Nat,
      (if i.testBit k then Complex.normSq (v (i ^^^ 2 ^ k) - v i)
       else Complex.normSq (v i + v (i ^^^ 2 ^ k))) +
      (if (i ^^^ 2 ^ k).testBit k
        then Complex.normSq (v ((i ^^^ 2 ^ k) ^^^ 2 ^ k) - v (i ^^^ 2 ^ k))
        else Complex.normSq (v (i ^^^ 2 ^ k) + v ((i ^^^ 2 ^ k) ^^^ 2 ^ k))) =
      2 * (Complex.normSq (v i) + Complex.normSq (v (i ^^^ 2 ^ k))) := by
    intro i
    rw [hbitσ i, hinvol i]
    cases hb : i.testBit k
    · rw [if_neg (by simp [hb]), if_pos (by simp [hb]),
        Complex.normSq_add, Complex.normSq_sub]
      ring
    · rw [if_pos (by simp [hb]), if_neg (by simp [hb]),
        Complex.normSq_sub, Complex.normSq_add]
      ring
  unfold sumSq
  rw [Finset.sum_congr rfl (fun i _ => hH i), ← Finset.sum_div]
  have hgσ := hS (fun i =>
    if i.testBit k then Complex.normSq (v (i ^^^ 2 ^ k) - v i)
    else Complex.normSq (v i + v (i ^^^ 2 ^ k)))
  have hvσ := hS (fun i => Complex.normSq (v i))
  have hsum := Finset.sum_congr (rfl : Finset.range (2 ^ n) = Finset.range (2 ^ n))
    (fun i _ => hpair i)
  rw [Finset.sum_add_distrib, hgσ] at hsum
  have hrhs : ∑ i in Finset.range (2 ^ n),
      2 * (Complex.normSq (v i) + Complex.normSq (v (i ^^^ 2 ^ k))) =
      2 * ((∑ i in Finset.range (2 ^ n), Complex.normSq (v i)) +
        ∑ i in Finset.range (2 ^ n), Complex.normSq (v i)) := by
    rw [← Finset.mul_sum, Finset.sum_add_distrib, hvσ]
  rw [hrhs] at hsum
  linarith

theorem sumSq_applyX_C (n k : Nat) (hk : k < n) (v : Nat → ℂ) :
    sumSq n (applyX_C k v) = sumSq n v := by
  unfold sumSq applyX_C
  exact sum_involution_range (2 ^ n) (fun i => i ^^^ 2 ^ k)
    (fun i hi => Nat.xor_lt_two_pow hi (Nat.pow_lt_pow_right (by norm_num) hk))
    (fun i _ => Nat.xor_cancel_right _ _) (fun i => Complex.normSq (v i))

theorem sumSq_applyZ_C (n k : Nat) (v : Nat → ℂ) :
    sumSq n (applyZ_C k v) = sumSq n v := by
  unfold sumSq applyZ_C
  apply Finset.sum_congr rfl
  intro i _
  by_cases hb : i.testBit k <;> simp [hb, Complex.normSq_neg]

theorem sumSq_applyMCX_C (n : Nat) (controls : List Nat) (t : Nat) (ht : t < n)
    (htc : t ∉ controls) (v : Nat → ℂ) :
    sumSq n (applyMCX_C controls t v) = sumSq n v := by
  have hbit : ∀ (i c : Nat), c ∈ controls → (i ^^^ 2 ^ t).testBit c = i.testBit c := by
    intro i c hc
    rw [Nat.testBit_xor, Nat.testBit_two_pow_of_ne (by rintro rfl; exact htc hc),
      Bool.xor_false]
  have hctrl : ∀ i : Nat,
      (controls.all fun c => (i ^^^ 2 ^ t).testBit c) =
      (controls.all fun c => i.testBit c) := by
    intro i
    have haux : ∀ L : List Nat, (∀ c ∈ L, c ∈ controls) →
        (L.all fun c => (i ^^^ 2 ^ t).testBit c) = (L.all fun c => i.testBit c) := by
      intro L
      induction L with
      | nil => intro _; rfl
      | cons hd tl ih =>
        intro hmem
        simp only [List.all_cons, hbit i hd (hmem hd (List.mem_cons_self _ _)),
          ih (fun c hc => hmem c (List.mem_cons_of_mem _ hc))]
    exact haux controls (fun c hc => hc)
  have hσmem : ∀ i, i < 2 ^ n →
      (if controls.all (fun c => i.testBit c) then i ^^^ 2 ^ t else i) < 2 ^ n := by
    intro i hi
    by_cases hc : controls.all (fun c => i.testBit c)
    · rw [if_pos hc]
      exact Nat.xor_lt_two_pow hi (Nat.pow_lt_pow_right (by norm_num) ht)
    · rw [if_neg hc]
      exact hi
  have hσinv : ∀ i, i < 2 ^ n →
      (fun j => if controls.all (fun c => j.testBit c) then j ^^^ 2 ^ t else j)
        ((fun j => if controls.all (fun c => j.testBit c) then j ^^^ 2 ^ t else j) i) = i := by
    intro i _
    by_cases hc : controls.all (fun c => i.testBit c)
    · simp only [if_pos hc, hctrl i, if_pos hc]
      exact Nat.xor_cancel_right _ _
    · simp only [if_neg hc]
  have hval : ∀ i, applyMCX_C controls t v i =
      v (if controls.all (fun c => i.testBit c) then i ^^^ 2 ^ t else i) := by
    intro i
    unfold applyMCX_C
    by_cases hc : controls.all (fun c => i.testBit c)
    · rw [if_pos hc, if_pos hc]
    · rw [if_neg hc, if_neg hc]
  unfold sumSq
  rw [Finset.sum_congr rfl (fun i _ => by rw [hval i])]
  exact sum_involution_range (2 ^ n) _ hσmem hσinv (fun i => Complex.normSq (v i))

theorem applyCX_eq_applyMCX (c t : Nat) (v : Nat → ℂ) :
    applyCX_C c t v = applyMCX_C [c] t v := by
  funext i
  simp [applyCX_C, applyMCX_C]

theorem sumSq_applyCX_C (n c t : Nat) (ht : t < n) (hct : c ≠ t) (v : Nat → ℂ) :
    sumSq n (applyCX_C c t v) = sumSq n v := by
  rw [applyCX_eq_applyMCX]
  exact sumSq_applyMCX_C n [c] t ht
    (by simp [List.mem_singleton]; exact fun h => hct h.symm) v

theorem normSq_exp_real_mul_I (r : ℝ) :
    Complex.normSq (Complex.exp (((r : ℝ) : ℂ) * Complex.I)) = 1 := by
  rw [← Complex.sq_abs, Complex.abs_exp_ofReal_mul_I, one_pow]

theorem sumSq_applyRZ_C (n : Nat) (θ : ℝ) (k : Nat) (v : Nat → ℂ) :
    sumSq n (applyRZ_C θ k v) = sumSq n v := by
  unfold sumSq applyRZ_C
  apply Finset.sum_congr rfl
  intro i _
  by_cases hb : i.testBit k
  · rw [if_pos hb, Complex.normSq_mul, normSq_exp_real_mul_I, one_mul]
  · rw [if_neg hb, Complex.normSq_mul, normSq_exp_real_mul_I, one_mul]

/-- Claim C2: every supported gate preserves the sum of squared amplitude
magnitudes exactly — a state with total probability 1 keeps total probability 1
after Hadamard, PauliX, PauliZ, ControlledX, MultiControlledX and RotationZ (in
particular the sum stays within any tolerance such as `1e-6`), so the invariant
holds after every operation of every circuit by induction over its operation
list. -/
theorem all_gates_preserve_normalization (n : Nat) (v : Nat → ℂ)
    (hv : sumSq n v = 1) :
    (∀ k, k < n → sumSq n (applyH_C k v) = 1) ∧
    (∀ k, k < n → sumSq n (applyX_C k v) = 1) ∧
    (∀ k, sumSq n (applyZ_C k v) = 1) ∧
    (∀ c t, t < n → c ≠ t → sumSq n (applyCX_C c t v) = 1) ∧
    (∀ controls t, t < n → t ∉ controls → sumSq n (applyMCX_C controls t v) = 1) ∧
    (∀ θ k, sumSq n (applyRZ_C θ k v) = 1) := by
  refine ⟨?_, ?_, ?_, ?_, ?_, ?_⟩
  · intro k hk; rw [sumSq_applyH_C n k hk v, hv]
  · intro k hk; rw [sumSq_applyX_C n k hk v, hv]
  · intro k; rw [sumSq_applyZ_C n k v, hv]
  · intro c t ht hct; rw [sumSq_applyCX_C n c t ht hct v, hv]
  · intro controls t ht htc; rw [sumSq_applyMCX_C n controls t ht htc v, hv]
  · intro θ k; rw [sumSq_applyRZ_C n θ k v, hv]

/-- The one-qubit basis state `|0⟩` over ℂ. -/
def basis0C : Nat → ℂ := fun i => if i = 0 then 1 else 0

theorem sumSq_basis0C : sumSq 1 basis0C = 1 := by
  unfold sumSq basis0C
  rw [show (2 : ℕ) ^ 1 = 2 from rfl]
  rw [Finset.sum_range_succ, Finset.sum_range_one]
  norm_num

/-- Witness for claim C2's theorem: the preserved normalization of `|0⟩` under
a Pauli-X on qubit 0. -/
theorem all_gates_preserve_normalization_witness :
    sumSq 1 basis0C = 1 ∧ sumSq 1 (applyX_C 0 basis0C) = 1 :=
  ⟨sumSq_basis0C,
    (all_gates_preserve_normalization 1 basis0C sumSq_basis0C).2.1 0 (by decide)⟩

/-- Exact complex state-vector action of one circuit operation. -/
noncomputable def runOpC : Op → (Nat → ℂ) → Nat → ℂ
  | Op.h k => applyH_C k
  | Op.x k => applyX_C k
  | Op.mcx controls t => applyMCX_C controls t

/-- Apply a list of operations over ℂ in circuit order. -/
noncomputable def runOpsC (ops : List Op) (v : Nat → ℂ) : Nat → ℂ :=
  ops.foldl (fun w op => runOpC op w) v

theorem runOpsC_append (l1 l2 : List Op) (v : Nat → ℂ) :
    runOpsC (l1 ++ l2) v = runOpsC l2 (runOpsC l1 v) := by
  unfold runOpsC
  rw [List.foldl_append]

theorem applyX_C_invol (k : Nat) (v : Nat → ℂ) : applyX_C k (applyX_C k v) = v := by
  funext i
  unfold applyX_C
  rw [Nat.xor_cancel_right]

theorem applyX_C_comm (a b : Nat) (v : Nat → ℂ) :
    applyX_C a (applyX_C b v) = applyX_C b (applyX_C a v) := by
  funext i
  unfold applyX_C
  rw [Nat.xor_assoc, Nat.xor_assoc, Nat.xor_comm (2 ^ a) (2 ^ b)]

theorem runOpsC_xs_commute (L : List Nat) (a : Nat) (v : Nat → ℂ) :
    runOpsC (L.map Op.x) (applyX_C a v) = applyX_C a (runOpsC (L.map Op.x) v) := by
  induction L generalizing v with
  | nil => rfl
  | cons b L ih =>
    show runOpsC (L.map Op.x) (applyX_C b (applyX_C a v)) = _
    rw [applyX_C_comm b a, ih]
    rfl

theorem runOpsC_xs_invol (L : List Nat) (v : Nat → ℂ) :
    runOpsC (L.map Op.x) (runOpsC (L.map Op.x) v) = v := by
  induction L generalizing v with
  | nil => rfl
  | cons a L ih =>
    show runOpsC (L.map Op.x) (applyX_C a (runOpsC (L.map Op.x) (applyX_C a v))) = v
    rw [← runOpsC_xs_commute, applyX_C_invol, ih]

theorem applyMCX_C_invol (controls : List Nat) (t : Nat) (htc : t ∉ controls)
    (v : Nat → ℂ) : applyMCX_C controls t (applyMCX_C controls t v) = v := by
  have hbit : ∀ (i c : Nat), c ∈ controls → (i ^^^ 2 ^ t).testBit c = i.testBit c := by
    intro i c hc
    rw [Nat.testBit_xor, Nat.testBit_two_pow_of_ne (by rintro rfl; exact htc hc),
      Bool.xor_false]
  have hctrl : ∀ i : Nat,
      (controls.all fun c => (i ^^^ 2 ^ t).testBit c) =
      (controls.all fun c => i.testBit c) := by
    intro i
    have haux : ∀ L : List Nat, (∀ c ∈ L, c ∈ controls) →
        (L.all fun c => (i ^^^ 2 ^ t).testBit c) = (L.all fun c => i.testBit c) := by
      intro L
      induction L with
      | nil => intro _; rfl
      | cons hd tl ih =>
        intro hmem
        simp only [List.all_cons, hbit i hd (hmem hd (List.mem_cons_self _ _)),
          ih (fun c hc => hmem c (List.mem_cons_of_mem _ hc))]
    exact haux controls (fun c hc => hc)
  funext i
  unfold applyMCX_C
  by_cases hc : controls.all (fun c => i.testBit c)
  · rw [if_pos hc, hctrl i, if_pos hc, Nat.xor_cancel_right]
  · rw [if_neg hc, if_neg hc]

theorem xLayerOps_ok_shape (num_qubits : Nat) (l : List (Nat × Bool)) (xs : List Op)
    (h : xLayerOps num_qubits l = Except.ok xs) : ∃ L : List Nat, xs = L.map Op.x := by
  induction l generalizing xs with
  | nil =>
    refine ⟨[], ?_⟩
    have h' : Except.ok ([] : List Op) = Except.ok xs := h
    cases h'
    rfl
  | cons hd tl ih =>
    obtain ⟨idx, b⟩ := hd
    cases b with
    | true => exact ih xs h
    | false =>
      rw [show xLayerOps num_qubits ((idx, false) :: tl) =
          (if idx < num_qubits then
            match xLayerOps num_qubits tl with
            | Except.ok ops => Except.ok (Op.x idx :: ops)
            | Except.error e => Except.error e
          else Except.error CircuitError.indexOutOfRange) from rfl] at h
      by_cases hidx : idx < num_qubits
      · rw [if_pos hidx] at h
        cases htl : xLayerOps num_qubits tl with
        | ok ops =>
          rw [htl] at h
          cases h
          obtain ⟨L, rfl⟩ := ih ops htl
          exact ⟨idx :: L, rfl⟩
        | error e =>
          rw [htl] at h
          cases h
      · rw [if_neg hidx] at h
        cases h

/-- Claim C4: the oracle circuit built by `create_oracle` is exactly
self-inverse — applying its operation list twice to any starting state of the
search qubits plus ancilla restores every amplitude (global phase 1), hence in
particular the search-qubit amplitudes up to a global phase. -/
theorem oracle_self_inverse (k : Nat) (target : List Bool) (ops : List Op)
    (v : Nat → ℂ) (h : create_oracle k target = Except.ok ops) :
    runOpsC ops (runOpsC ops v) = v := by
  have hk : k ∉ List.range k := by simp
  rw [show create_oracle k target =
      (match xLayerOps k (zfill k target).enum with
        | Except.error e => Except.error e
        | Except.ok xs => Except.ok (xs ++ [Op.mcx (List.range k) k] ++ xs)) from rfl] at h
  cases hx : xLayerOps k (zfill k target).enum with
  | error e => rw [hx] at h; cases h
  | ok xs =>
    rw [hx] at h
    cases h
    obtain ⟨L, rfl⟩ := xLayerOps_ok_shape k _ xs hx
    have hmcx : ∀ w : Nat → ℂ, runOpsC [Op.mcx (List.range k) k] w =
        applyMCX_C (List.range k) k w := fun w => rfl
    simp only [runOpsC_append, hmcx]
    rw [runOpsC_xs_invol L (applyMCX_C (List.range k) k (runOpsC (L.map Op.x) v))]
    rw [applyMCX_C_invol (List.range k) k hk (runOpsC (L.map Op.x) v)]
    exact runOpsC_xs_invol L v

/-- Witness for claim C4's theorem: the concrete oracle for target `"1011"` on
4 search qubits, applied twice to the state `i ↦ i`. -/
theorem oracle_self_inverse_witness :
    create_oracle 4 pattern1011 =
      Except.ok [Op.x 1, Op.mcx [0, 1, 2, 3] 4, Op.x 1] ∧
    runOpsC [Op.x 1, Op.mcx [0, 1, 2, 3] 4, Op.x 1]
      (runOpsC [Op.x 1, Op.mcx [0, 1, 2, 3] 4, Op.x 1] (fun i => ((i : ℕ) : ℂ))) =
      (fun i => ((i : ℕ) : ℂ)) :=
  ⟨rfl, oracle_self_inverse 4 pattern1011 _ _ rfl⟩

/-- Claim C9: two consecutive Z-rotations on the same qubit compose exactly —
`RotationZ(θ1)` then `RotationZ(θ2)` equals `RotationZ(θ1+θ2)` on every state
vector (exact equality, hence equality within any numerical tolerance). -/
theorem rz_composition (θ1 θ2 : ℝ) (k : Nat) (v : Nat → ℂ) :
    applyRZ_C θ2 k (applyRZ_C θ1 k v) = applyRZ_C (θ1 + θ2) k v := by
  funext i
  unfold applyRZ_C
  by_cases hb : i.testBit k
  · rw [if_pos hb, if_pos hb, if_pos hb, ← mul_assoc, ← Complex.exp_add]
    congr 2
    push_cast
    ring
  · rw [if_neg hb, if_neg hb, if_neg hb, ← mul_assoc, ← Complex.exp_add]
    congr 2
    push_cast
    ring
